import Mathlib

/-!
Shallow embedding of the MCTS search tree core of cczero
(src/mcts/node.cc), together with theorems settling the specification
claims about it.  Machine floats are modelled as rationals, the
unsigned and signed machine counters as Nat and Int.  A fatal assert
in the C++ source is modelled by an Option valued function returning
none.  The header node.h is not in the source tree; where a needed
definition lives only there, the model follows the data model section
of the specification and says so in its doc comment.
-/

namespace CCZero

/-- The three game results node.cc mentions (the defining enum lives in a
header outside the source tree; node.cc uses exactly these values). -/
inductive GameResult where
  | WHITE_WON
  | BLACK_WON
  | DRAW
deriving DecidableEq

/-- Modelled from the spec: the Move class is outside the source tree.
Per the data model a move is an opaque identity with a mirror operation
(flip the side to move perspective, an involution) and a dense policy
index as_nn_index.  We realise it as the policy index plus a perspective
bit; mirror flips the bit. -/
structure Move where
  idx : Nat
  flipped : Bool
deriving DecidableEq

/-- Modelled from the spec: mirror flips the side to move perspective. -/
def Move.mirror (m : Move) : Move :=
  { m with flipped := !m.flipped }

/-- Modelled from the spec: dense index into the policy head. -/
def Move.as_nn_index (m : Move) : Nat := m.idx

/-- An Edge as in node.cc: an immutable move plus prior probability p
(a machine float, modelled as a rational). -/
structure EdgeM where
  move : Move
  p : ℚ
deriving DecidableEq

/-- Default edge used to model raw C++ indexing out of range. -/
def defaultEdge : EdgeM := { move := { idx := 0, flipped := false }, p := 0 }

/-- The mutable statistics of a Node.  The field list follows the data
model section of the spec (node.h is outside the source tree): completed
visit count n, virtual loss counter n_in_flight (an Int, so that an
unchecked decrement can drive it negative), running mean q,
visited_policy, terminal flag, the edge list (empty iff unexpanded) and
whether a child is materialized. -/
structure NodeState where
  n : Nat
  n_in_flight : Int
  q : ℚ
  visited_policy : ℚ
  is_terminal : Bool
  edges : List EdgeM
  hasChild : Bool
deriving DecidableEq

/-- Initial state of a freshly created node (spec section 4.2). -/
def initNode : NodeState :=
  { n := 0, n_in_flight := 0, q := 0, visited_policy := 0,
    is_terminal := false, edges := [], hasChild := false }

/-- The view of the parent node that Node::FinalizeScoreUpdate touches:
its visited_policy and its edge list. -/
structure ParentState where
  visited_policy : ℚ
  edges : List EdgeM
deriving DecidableEq

/-- Node::MakeTerminal (node.cc lines 161 to 164): sets the terminal
flag and q, which becomes 0 for a draw and 1 for any other result. -/
def makeTerminal (result : GameResult) (s : NodeState) : NodeState :=
  { s with is_terminal := true,
           q := if result = GameResult.DRAW then 0 else 1 }

/-- Node::TryStartScoreUpdate (node.cc lines 166 to 170): returns false
and changes nothing when n is zero and a visit is in flight; otherwise
increments n_in_flight and returns true. -/
def tryStartScoreUpdate (s : NodeState) : Bool × NodeState :=
  if s.n = 0 ∧ 0 < s.n_in_flight then (false, s)
  else (true, { s with n_in_flight := s.n_in_flight + 1 })

/-- Node::CancelScoreUpdate (node.cc line 172): a bare decrement of
n_in_flight, with no assertion. -/
def cancelScoreUpdate (s : NodeState) : NodeState :=
  { s with n_in_flight := s.n_in_flight - 1 }

/-- Node::CreateEdges (node.cc lines 135 to 139): asserts that the node
has no edges and no child, then installs an EdgeList built from the
moves; the EdgeList constructor (lines 117 to 121) sets each move and
leaves p at 0. -/
def createEdges (moves : List Move) (s : NodeState) : Option NodeState :=
  if s.edges = [] ∧ s.hasChild = false then
    some { s with edges := moves.map (fun m => { move := m, p := 0 }) }
  else none

/-- Node::FinalizeScoreUpdate (node.cc lines 174 to 185): folds v into
the running mean q, on a first visit adds the prior of the spawning edge
to the visited_policy of the parent (when there is one), increments n
and decrements n_in_flight.  The optional parent view is returned
updated. -/
def finalizeScoreUpdate (v : ℚ) (s : NodeState)
    (par : Option (ParentState × Nat)) : NodeState × Option ParentState :=
  let q2 := s.q + (v - s.q) / ((s.n : ℚ) + 1)
  let par2 : Option ParentState :=
    match par with
    | some (p, idx) =>
        some (if s.n = 0 then
                { p with visited_policy :=
                    p.visited_policy + (p.edges.getD idx defaultEdge).p }
              else p)
    | none => none
  ({ s with q := q2, n := s.n + 1, n_in_flight := s.n_in_flight - 1 }, par2)

/-- The effect of a sequence of backups on a node that has no parent:
FinalizeScoreUpdate applied once per value, in order. -/
def applyBackups (vs : List ℚ) (s : NodeState) : NodeState :=
  vs.foldl (fun t v => (finalizeScoreUpdate v t none).1) s

lemma applyBackups_nil (s : NodeState) : applyBackups [] s = s := rfl

lemma applyBackups_cons (v : ℚ) (vs : List ℚ) (s : NodeState) :
    applyBackups (v :: vs) s = applyBackups vs (finalizeScoreUpdate v s none).1 := rfl

lemma applyBackups_n (vs : List ℚ) (s : NodeState) :
    (applyBackups vs s).n = s.n + vs.length := by
  induction vs generalizing s with
  | nil => simp [applyBackups_nil]
  | cons v vs ih =>
      rw [applyBackups_cons, ih]
      simp [finalizeScoreUpdate]
      omega

lemma applyBackups_q_mul_n (vs : List ℚ) (s : NodeState) :
    (applyBackups vs s).q * ((applyBackups vs s).n : ℚ)
      = s.q * (s.n : ℚ) + vs.sum := by
  induction vs generalizing s with
  | nil => simp [applyBackups_nil]
  | cons v vs ih =>
      rw [applyBackups_cons, ih]
      have hn : ((finalizeScoreUpdate v s none).1.n : ℚ) = (s.n : ℚ) + 1 := by
        simp [finalizeScoreUpdate]
      have hq : (finalizeScoreUpdate v s none).1.q
          = s.q + (v - s.q) / ((s.n : ℚ) + 1) := by
        simp [finalizeScoreUpdate]
      rw [hn, hq]
      have hpos : ((s.n : ℚ) + 1) ≠ 0 := by positivity
      rw [List.sum_cons]
      field_simp
      ring

/-- Claim C1: TryStartScoreUpdate returns false iff n is zero while
n_in_flight is positive, and then leaves the whole state unchanged; in
every other state it returns true and increments n_in_flight by one,
leaving n, q and visited_policy unchanged. -/
theorem tryStartScoreUpdate_spec (s : NodeState) :
    ((tryStartScoreUpdate s).1 = false ↔ (s.n = 0 ∧ 0 < s.n_in_flight))
    ∧ ((tryStartScoreUpdate s).1 = false → (tryStartScoreUpdate s).2 = s)
    ∧ ((tryStartScoreUpdate s).1 = true →
        (tryStartScoreUpdate s).2.n_in_flight = s.n_in_flight + 1
        ∧ (tryStartScoreUpdate s).2.n = s.n
        ∧ (tryStartScoreUpdate s).2.q = s.q
        ∧ (tryStartScoreUpdate s).2.visited_policy = s.visited_policy) := by
  by_cases h : s.n = 0 ∧ 0 < s.n_in_flight
  · simp [tryStartScoreUpdate, h]
  · simp [tryStartScoreUpdate, h]

/-- Witness for C1: on the unvisited root with one visit in flight the
call fails and changes nothing; on the fresh root it succeeds. -/
theorem tryStartScoreUpdate_spec_witness :
    (tryStartScoreUpdate { initNode with n_in_flight := 1 }).2
      = { initNode with n_in_flight := 1 } :=
  (tryStartScoreUpdate_spec { initNode with n_in_flight := 1 }).2.1
    (by decide)

/-- Claim C2: FinalizeScoreUpdate establishes exactly the new mean
q + (v - q) / (n + 1), increments n, decrements n_in_flight, leaves the
visited_policy of the node itself unchanged, and adds the prior of the
spawning edge to the visited_policy of the parent exactly when n was
zero and a parent exists, leaving the parent untouched otherwise. -/
theorem finalizeScoreUpdate_spec (v : ℚ) (s : NodeState) (p : ParentState)
    (idx : Nat) (h : idx < p.edges.length) :
    ((finalizeScoreUpdate v s (some (p, idx))).1.q
        = s.q + (v - s.q) / ((s.n : ℚ) + 1))
    ∧ ((finalizeScoreUpdate v s (some (p, idx))).1.n = s.n + 1)
    ∧ ((finalizeScoreUpdate v s (some (p, idx))).1.n_in_flight
        = s.n_in_flight - 1)
    ∧ ((finalizeScoreUpdate v s (some (p, idx))).1.visited_policy
        = s.visited_policy)
    ∧ (s.n = 0 →
        (finalizeScoreUpdate v s (some (p, idx))).2
          = some { p with visited_policy :=
              p.visited_policy + (p.edges.get ⟨idx, h⟩).p })
    ∧ (s.n ≠ 0 →
        (finalizeScoreUpdate v s (some (p, idx))).2 = some p)
    ∧ ((finalizeScoreUpdate v s none).2 = none) := by
  refine ⟨rfl, rfl, rfl, rfl, ?_, ?_, rfl⟩
  · intro h0
    simp [finalizeScoreUpdate, h0, List.getElem?_eq_getElem h,
      List.get_eq_getElem]
  · intro h0
    simp [finalizeScoreUpdate, h0]

/-- Witness for C2: a first visit with value one half on a fresh node
whose parent has a single edge of prior one quarter. -/
theorem finalizeScoreUpdate_spec_witness :
    (finalizeScoreUpdate (1/2) initNode
        (some ({ visited_policy := 0, edges := [{ move := { idx := 0, flipped := false }, p := 1/4 }] }, 0))).2
      = some { visited_policy := 0 + 1/4,
               edges := [{ move := { idx := 0, flipped := false }, p := 1/4 }] } :=
  ((finalizeScoreUpdate_spec (1/2) initNode
      { visited_policy := 0, edges := [{ move := { idx := 0, flipped := false }, p := 1/4 }] }
      0 (by decide)).2.2.2.2.1) rfl

/-- Counterexample to claim C4: MakeTerminal never writes -1.  Both
WHITE_WON and BLACK_WON set q to 1 and DRAW sets it to 0; whichever of
the two decisive results is a loss for the side to move at the node, its
q becomes 1, not the -1 the claim demands. -/
theorem makeTerminal_no_minus_one :
    (makeTerminal GameResult.WHITE_WON initNode).q = 1
    ∧ (makeTerminal GameResult.BLACK_WON initNode).q = 1
    ∧ (makeTerminal GameResult.DRAW initNode).q = 0 := by
  refine ⟨rfl, rfl, rfl⟩

/-- Claim C4 as amended: MakeTerminal sets is_terminal and sets q to 0
for a draw and to 1 for every other result; the loss case is not
distinguished, so afterwards q lies in the set containing 0 and 1 (in
particular in the set containing -1, 0 and 1). -/
theorem makeTerminal_spec (result : GameResult) (s : NodeState) :
    (makeTerminal result s).is_terminal = true
    ∧ (makeTerminal result s).q
        = (if result = GameResult.DRAW then 0 else 1)
    ∧ ((makeTerminal result s).q = 0 ∨ (makeTerminal result s).q = 1) := by
  refine ⟨rfl, rfl, ?_⟩
  by_cases h : result = GameResult.DRAW
  · left
    simp [makeTerminal, h]
  · right
    simp [makeTerminal, h]

/-- Claim C8: a fresh node receiving the backups in vs, with no
concurrency, ends with q equal to the exact arithmetic mean. -/
theorem applyBackups_mean (vs : List ℚ) (h : vs ≠ []) :
    (applyBackups vs initNode).q = vs.sum / (vs.length : ℚ) := by
  have hn : (applyBackups vs initNode).n = vs.length := by
    simpa [initNode] using applyBackups_n vs initNode
  have hmul := applyBackups_q_mul_n vs initNode
  rw [hn] at hmul
  have h0 : initNode.q * ((initNode.n : Nat) : ℚ) = 0 := by
    norm_num [initNode]
  rw [h0, zero_add] at hmul
  have hlen : (vs.length : ℚ) ≠ 0 := by
    have hz : vs.length ≠ 0 := by
      simpa [List.length_eq_zero] using h
    exact_mod_cast hz
  rw [eq_div_iff hlen]
  exact hmul

/-- Witness for C8: two backups of one half and one quarter average to
three eighths. -/
theorem applyBackups_mean_witness :
    (applyBackups [1/2, 1/4] initNode).q
      = ([1/2, 1/4] : List ℚ).sum / (([1/2, 1/4] : List ℚ).length : ℚ) :=
  applyBackups_mean [1/2, 1/4] (by decide)

/-- Counterexample to claim C9: CancelScoreUpdate carries no assertion.
Called on a fresh node, whose n_in_flight is zero, it silently drives
n_in_flight to -1 instead of failing. -/
theorem cancelScoreUpdate_no_assert :
    cancelScoreUpdate initNode = { initNode with n_in_flight := -1 }
    ∧ (cancelScoreUpdate initNode).n_in_flight < 0 := by
  refine ⟨rfl, by decide⟩

/-- Claim C9 as amended: double expansion does trigger the fatal
assertion in CreateEdges, but CancelScoreUpdate is an unchecked
decrement: with n_in_flight already zero it silently corrupts the state
to a negative in flight count, with no assertion. -/
theorem preconditions_spec (moves : List Move) (s : NodeState) :
    (s.edges ≠ [] → createEdges moves s = none)
    ∧ (s.hasChild = true → createEdges moves s = none)
    ∧ (cancelScoreUpdate s).n_in_flight = s.n_in_flight - 1
    ∧ (cancelScoreUpdate initNode).n_in_flight = -1 := by
  refine ⟨?_, ?_, rfl, rfl⟩
  · intro h
    simp [createEdges, h]
  · intro h
    simp [createEdges, h]

/-- Witness for C9 as amended: expanding an already expanded node is
refused. -/
theorem preconditions_spec_witness :
    createEdges [] { initNode with edges := [defaultEdge] } = none :=
  (preconditions_spec [] { initNode with edges := [defaultEdge] }).1
    (by decide)

/-- A materialized child in the child chain of a node: id models the
pointer identity of the C++ node (pointers of live nodes are distinct),
index its position in the parent edge list, n its visit count. -/
structure ChildN where
  id : Nat
  index : Nat
  n : Nat
deriving DecidableEq

/-- The walk of Node::ReleaseChildrenExceptOne over the child chain
(node.cc lines 213 to 223): find the first chain entry whose pointer is
the one to save and split the chain around it. -/
def findSplit (k : Nat) : List ChildN → Option (List ChildN × ChildN × List ChildN)
  | [] => none
  | c :: rest =>
      if c.id = k then some ([], c, rest)
      else
        match findSplit k rest with
        | some (pre, x, post) => some (c :: pre, x, post)
        | none => none

/-- Node::ReleaseChildrenExceptOne (node.cc lines 209 to 227).  The
first component is the child chain left on the node, the second the
nodes handed to the garbage collector: when the node to save is found,
its later siblings are queued first and the earlier ones after, and it
stays as the sole child; a null argument or an absent node releases the
whole chain. -/
def releaseChildrenExceptOne (keep : Option Nat) (chain : List ChildN) :
    List ChildN × List ChildN :=
  match keep with
  | none => ([], chain)
  | some k =>
      match findSplit k chain with
      | some (pre, c, post) => ([c], post ++ pre)
      | none => ([], chain)

lemma findSplit_of_split (k : Nat) (pre post : List ChildN) (c : ChildN)
    (hid : c.id = k) (hpre : ∀ x ∈ pre, x.id ≠ k) :
    findSplit k (pre ++ c :: post) = some (pre, c, post) := by
  induction pre with
  | nil => simp [findSplit, hid]
  | cons a pre ih =>
      have ha : a.id ≠ k := hpre a (by simp)
      have ih2 := ih (fun x hx => hpre x (by simp [hx]))
      simp [findSplit, ha, ih2]

lemma findSplit_none (k : Nat) (chain : List ChildN)
    (h : ∀ x ∈ chain, x.id ≠ k) : findSplit k chain = none := by
  induction chain with
  | nil => rfl
  | cons a rest ih =>
      have ha : a.id ≠ k := h a (by simp)
      have ih2 := ih (fun x hx => h x (by simp [hx]))
      simp [findSplit, ha, ih2]

/-- Claim C5: when the node to keep sits in the chain (identified by its
pointer, unique among the siblings) it becomes the sole remaining child
and every other sibling, before and after it, goes to the garbage
collector; when it is absent, or the argument is null, all children are
released and none remain. -/
theorem releaseChildrenExceptOne_spec (pre post chain : List ChildN)
    (c : ChildN) (k : Nat) (hpre : ∀ x ∈ pre, x.id ≠ c.id)
    (habs : ∀ x ∈ chain, x.id ≠ k) :
    (releaseChildrenExceptOne (some c.id) (pre ++ c :: post)).1 = [c]
    ∧ ((releaseChildrenExceptOne (some c.id) (pre ++ c :: post)).2).Perm
        (pre ++ post)
    ∧ releaseChildrenExceptOne (some k) chain = ([], chain)
    ∧ releaseChildrenExceptOne none chain = ([], chain) := by
  have hs := findSplit_of_split c.id pre post c rfl hpre
  have hn := findSplit_none k chain habs
  refine ⟨?_, ?_, ?_, rfl⟩
  · simp [releaseChildrenExceptOne, hs]
  · simp [releaseChildrenExceptOne, hs]
    exact List.perm_append_comm
  · simp [releaseChildrenExceptOne, hn]

/-- Witness for C5: a chain of three children with the middle one kept;
the other two are collected, and an absent id releases everything. -/
theorem releaseChildrenExceptOne_spec_witness :
    (releaseChildrenExceptOne (some 2)
        ([⟨1, 0, 4⟩] ++ ⟨2, 1, 5⟩ :: [⟨3, 2, 6⟩])).1 = [⟨2, 1, 5⟩]
    ∧ ((releaseChildrenExceptOne (some 2)
        ([⟨1, 0, 4⟩] ++ ⟨2, 1, 5⟩ :: [⟨3, 2, 6⟩])).2).Perm
          ([⟨1, 0, 4⟩] ++ [⟨3, 2, 6⟩])
    ∧ releaseChildrenExceptOne (some 9) [⟨1, 0, 4⟩] = ([], [⟨1, 0, 4⟩])
    ∧ releaseChildrenExceptOne none [⟨1, 0, 4⟩] = ([], [⟨1, 0, 4⟩]) :=
  releaseChildrenExceptOne_spec [⟨1, 0, 4⟩] [⟨3, 2, 6⟩] [⟨1, 0, 4⟩]
    ⟨2, 1, 5⟩ 9 (by decide) (by decide)

/-- The move canonicalisation at the top of NodeTree::MakeMove (node.cc
line 302): mirror exactly when the head position has the black side to
move. -/
def canonicalMove (blackToMove : Bool) (m : Move) : Move :=
  if blackToMove then m.mirror else m

/-- Modelled from the spec: GetOrSpawnNode is declared in the header,
which is outside the source tree.  Per the iteration view section a
fresh node is spliced into the child list at its ascending index
position; this inserts before the first entry with a larger index. -/
def insertByIndex (c : ChildN) : List ChildN → List ChildN
  | [] => [c]
  | x :: xs => if c.index < x.index then c :: x :: xs else x :: insertByIndex c xs

/-- Modelled from the spec: GetOrSpawnNode returns the materialized node
of the edge at position i when one exists, and otherwise allocates a
fresh node (with the given pointer identity, index i and zero visits)
and splices it into the child list. -/
def getOrSpawnNode (children : List ChildN) (i : Nat) (freshId : Nat) :
    ChildN × List ChildN :=
  match children.find? (fun c => c.index == i) with
  | some c => (c, children)
  | none => (⟨freshId, i, 0⟩, insertByIndex ⟨freshId, i, 0⟩ children)

/-- The fields of the search head that NodeTree::MakeMove touches. -/
structure HeadNode where
  edges : List EdgeM
  children : List ChildN
deriving DecidableEq

/-- The observable outcome of NodeTree::MakeMove: the node adopted as
the new head, the edge list and the child chain left on the old head,
the children handed to the garbage collector, and the move appended to
the history. -/
structure MakeMoveResult where
  newHead : ChildN
  headEdges : List EdgeM
  children : List ChildN
  gc : List ChildN
  appended : Move
deriving DecidableEq

/-- NodeTree::MakeMove (node.cc lines 301 to 315): canonicalise the
move, scan the head edges in order for a matching move, spawn or fetch
the node on the first matching edge, release every other child, and
fall back to Node::CreateSingleChildNode (lines 127 to 133) when no
edge matches; that fallback asserts that the head has no edges and no
child, so on an expanded head it is a fatal assertion, modelled as
none. -/
def makeMove (blackToMove : Bool) (head : HeadNode) (m0 : Move)
    (freshId : Nat) : Option MakeMoveResult :=
  let m := canonicalMove blackToMove m0
  match head.edges.findIdx? (fun e => e.move == m) with
  | some i =>
      let s := getOrSpawnNode head.children i freshId
      let r := releaseChildrenExceptOne (some s.1.id) s.2
      some { newHead := s.1, headEdges := head.edges, children := r.1,
             gc := r.2, appended := m }
  | none =>
      let r := releaseChildrenExceptOne none head.children
      if head.edges = [] then
        some { newHead := ⟨freshId, 0, 0⟩,
               headEdges := [{ move := m, p := 0 }],
               children := [⟨freshId, 0, 0⟩], gc := r.2, appended := m }
      else none

lemma find?_of_split {p : ChildN → Bool} (pre post : List ChildN)
    (c : ChildN) (hpre : ∀ x ∈ pre, p x = false) (hc : p c = true) :
    List.find? p (pre ++ c :: post) = some c := by
  induction pre with
  | nil => simp [List.find?, hc]
  | cons a pre ih =>
      have ha : p a = false := hpre a (by simp)
      have ih2 := ih (fun x hx => hpre x (by simp [hx]))
      simp only [List.cons_append, List.find?]
      rw [ha]
      exact ih2

lemma find?_none {p : ChildN → Bool} (l : List ChildN)
    (h : ∀ x ∈ l, p x = false) : List.find? p l = none := by
  induction l with
  | nil => rfl
  | cons a l ih =>
      have ha : p a = false := h a (by simp)
      have ih2 := ih (fun x hx => h x (by simp [hx]))
      simp only [List.find?]
      rw [ha]
      exact ih2

lemma insertByIndex_split (c : ChildN) (l : List ChildN) :
    ∃ pre post, insertByIndex c l = pre ++ c :: post ∧ l = pre ++ post := by
  induction l with
  | nil => exact ⟨[], [], rfl, rfl⟩
  | cons x xs ih =>
      by_cases h : c.index < x.index
      · exact ⟨[], x :: xs, by simp [insertByIndex, h], rfl⟩
      · obtain ⟨pre, post, h1, h2⟩ := ih
        refine ⟨x :: pre, post, ?_, by simp [h2]⟩
        simp [insertByIndex, h, h1]

lemma nodup_ids_prefix (pre post : List ChildN) (c : ChildN)
    (h : ((pre ++ c :: post).map ChildN.id).Nodup) :
    ∀ x ∈ pre, x.id ≠ c.id := by
  intro x hx
  rw [List.map_append, List.nodup_append] at h
  have hmem1 : x.id ∈ pre.map ChildN.id := List.mem_map_of_mem ChildN.id hx
  have hmem2 : c.id ∈ (c :: post).map ChildN.id := by simp
  intro heq
  exact (h.2.2 hmem1 (heq ▸ hmem2))

/-- Counterexample to claim C3: on a head that is already expanded (one
edge, for a different move) and has no matching edge for the played
move, MakeMove does not create a fresh singleton child; it runs into the
assertions of CreateSingleChildNode, a fatal failure. -/
theorem makeMove_unknown_on_expanded_head :
    makeMove false
      { edges := [{ move := { idx := 0, flipped := false }, p := 0 }],
        children := [] }
      { idx := 1, flipped := false } 7 = none := by decide

/-- Claim C3 as amended: MakeMove mirrors the move exactly when the head
position has black to move; scanning the head edges in order, the node
on the first matching edge becomes the new head (materialized through
GetOrSpawnNode if needed) and every other child of the old head goes to
the garbage collector; when no edge matches and the head is unexpanded,
a fresh singleton child (zero visits, via a one edge EdgeList) is
adopted as the new head; when no edge matches on an expanded head, the
fallback CreateSingleChildNode hits its fatal assertion.  In every
non-fatal case the canonical move is appended to the history. -/
theorem makeMove_spec (blackToMove : Bool) (head : HeadNode) (m0 : Move)
    (fid : Nat) :
    (∀ i pre c post,
      head.edges.findIdx?
          (fun e => e.move == canonicalMove blackToMove m0) = some i →
      head.children = pre ++ c :: post →
      c.index = i →
      (∀ x ∈ pre, x.index ≠ i) →
      ((head.children.map ChildN.id).Nodup) →
      makeMove blackToMove head m0 fid
        = some { newHead := c, headEdges := head.edges, children := [c],
                 gc := post ++ pre,
                 appended := canonicalMove blackToMove m0 })
    ∧ (∀ i,
      head.edges.findIdx?
          (fun e => e.move == canonicalMove blackToMove m0) = some i →
      (∀ x ∈ head.children, x.index ≠ i) →
      (∀ x ∈ head.children, x.id ≠ fid) →
      ∃ r, makeMove blackToMove head m0 fid = some r
        ∧ r.newHead = ⟨fid, i, 0⟩
        ∧ r.headEdges = head.edges
        ∧ r.children = [⟨fid, i, 0⟩]
        ∧ r.gc.Perm head.children
        ∧ r.appended = canonicalMove blackToMove m0)
    ∧ (head.edges = [] →
      makeMove blackToMove head m0 fid
        = some { newHead := ⟨fid, 0, 0⟩,
                 headEdges := [{ move := canonicalMove blackToMove m0, p := 0 }],
                 children := [⟨fid, 0, 0⟩], gc := head.children,
                 appended := canonicalMove blackToMove m0 })
    ∧ (head.edges.findIdx?
          (fun e => e.move == canonicalMove blackToMove m0) = none →
      head.edges ≠ [] →
      makeMove blackToMove head m0 fid = none) := by
  refine ⟨?_, ?_, ?_, ?_⟩
  · intro i pre c post hfind hsplit hcidx hpreidx hnodup
    have hfound : head.children.find? (fun x => x.index == i) = some c := by
      rw [hsplit]
      refine find?_of_split pre post c ?_ (by simp [hcidx])
      intro x hx
      simp [hpreidx x hx]
    have hpreid : ∀ x ∈ pre, x.id ≠ c.id :=
      nodup_ids_prefix pre post c (hsplit ▸ hnodup)
    have hrc := findSplit_of_split c.id pre post c rfl hpreid
    have hg : getOrSpawnNode head.children i fid = (c, head.children) := by
      simp only [getOrSpawnNode, hfound]
    have hr : releaseChildrenExceptOne (some c.id) head.children
        = ([c], post ++ pre) := by
      rw [hsplit]
      simp only [releaseChildrenExceptOne, hrc]
    simp only [makeMove, hfind, hg, hr]
  · intro i hfind hidx hids
    have hnone : head.children.find? (fun x => x.index == i) = none := by
      refine find?_none head.children ?_
      intro x hx
      simp [hidx x hx]
    obtain ⟨pre, post, h1, h2⟩ :=
      insertByIndex_split ⟨fid, i, 0⟩ head.children
    have hpreid : ∀ x ∈ pre, x.id ≠ fid := by
      intro x hx
      exact hids x (h2 ▸ List.mem_append_left post hx)
    have hrc := findSplit_of_split fid pre post ⟨fid, i, 0⟩ rfl hpreid
    have hg : getOrSpawnNode head.children i fid
        = (⟨fid, i, 0⟩, insertByIndex ⟨fid, i, 0⟩ head.children) := by
      simp only [getOrSpawnNode, hnone]
    have hr : releaseChildrenExceptOne (some fid)
        (insertByIndex ⟨fid, i, 0⟩ head.children)
        = ([⟨fid, i, 0⟩], post ++ pre) := by
      rw [h1]
      simp only [releaseChildrenExceptOne, hrc]
    refine ⟨{ newHead := ⟨fid, i, 0⟩, headEdges := head.edges,
              children := [⟨fid, i, 0⟩], gc := post ++ pre,
              appended := canonicalMove blackToMove m0 },
            ?_, rfl, rfl, rfl, ?_, rfl⟩
    · simp only [makeMove, hfind, hg, hr]
    · show (post ++ pre).Perm head.children
      rw [h2]
      exact List.perm_append_comm
  · intro hempty
    have hfind : head.edges.findIdx?
        (fun e => e.move == canonicalMove blackToMove m0) = none := by
      rw [hempty]
      rfl
    simp [makeMove, hfind, hempty, releaseChildrenExceptOne]
  · intro hfind hne
    simp [makeMove, hfind, hne, releaseChildrenExceptOne]

/-- Witness for C3 as amended: on a head with two edges and one
materialized child, playing the move of the second edge keeps that
child as the new head and collects the other child; and on an
unexpanded head the fresh singleton is adopted. -/
theorem makeMove_spec_witness :
    makeMove false
      { edges := [{ move := { idx := 0, flipped := false }, p := 1/2 },
                  { move := { idx := 3, flipped := false }, p := 1/2 }],
        children := [⟨10, 0, 7⟩, ⟨11, 1, 8⟩] }
      { idx := 3, flipped := false } 99
      = some { newHead := ⟨11, 1, 8⟩,
               headEdges := [{ move := { idx := 0, flipped := false }, p := 1/2 },
                             { move := { idx := 3, flipped := false }, p := 1/2 }],
               children := [⟨11, 1, 8⟩], gc := [] ++ [⟨10, 0, 7⟩],
               appended := canonicalMove false { idx := 3, flipped := false } } :=
  (makeMove_spec false
      { edges := [{ move := { idx := 0, flipped := false }, p := 1/2 },
                  { move := { idx := 3, flipped := false }, p := 1/2 }],
        children := [⟨10, 0, 7⟩, ⟨11, 1, 8⟩] }
      { idx := 3, flipped := false } 99).1
    1 [⟨10, 0, 7⟩] ⟨11, 1, 8⟩ []
    (by decide) rfl rfl (by decide) (by decide)

/-- Node::UpdateFullDepth (node.cc lines 191 to 203).  Inputs: the
full_depth of the node, the full_depths of its materialized children in
chain order, and the value of the in out depth parameter (a uint16,
hence the mod 2 to the 16 on the increment).  Output: the returned
flag, the new full_depth of the node, and the final value of the depth
parameter. -/
def updateFullDepth (full_depth : Nat) (childDepths : List Nat)
    (depth : Nat) : Bool × Nat × Nat :=
  if depth < full_depth then (false, full_depth, depth)
  else
    let d1 := childDepths.foldl (fun d c => if c < d then c else d) depth
    if full_depth ≤ d1 then (true, (d1 + 1) % 65536, (d1 + 1) % 65536)
    else (false, full_depth, d1)

lemma foldl_step_eq_foldl_min (cs : List Nat) (d : Nat) :
    cs.foldl (fun d c => if c < d then c else d) d = cs.foldl min d := by
  induction cs generalizing d with
  | nil => rfl
  | cons c cs ih =>
      simp only [List.foldl_cons]
      rw [ih]
      congr 1
      split <;> omega

lemma foldl_min_le (cs : List Nat) (d : Nat) : cs.foldl min d ≤ d := by
  induction cs generalizing d with
  | nil => exact Nat.le_refl d
  | cons c cs ih =>
      simp only [List.foldl_cons]
      exact Nat.le_trans (ih (min d c)) (Nat.min_le_left d c)

lemma foldl_min_eq (cs : List Nat) : ∀ d m : Nat,
    (∀ x ∈ cs, m ≤ x) → m ≤ d → (m ∈ cs ∨ m = d) →
    cs.foldl min d = m := by
  induction cs with
  | nil =>
      intro d m hall hd hmem
      rcases hmem with h | h
      · simp at h
      · simp [h]
  | cons c cs ih =>
      intro d m hall hd hmem
      simp only [List.foldl_cons]
      have hmc : m ≤ c := hall c (List.mem_cons_self c cs)
      have hacc : m ≤ min d c := le_min hd hmc
      have hall2 : ∀ x ∈ cs, m ≤ x :=
        fun x hx => hall x (List.mem_cons_of_mem c hx)
      rcases hmem with h | h
      · rcases List.mem_cons.mp h with h | h
        · by_cases hmem2 : m ∈ cs
          · exact ih (min d c) m hall2 hacc (Or.inl hmem2)
          · exact ih (min d c) m hall2 hacc (Or.inr (by omega))
        · exact ih (min d c) m hall2 hacc (Or.inl h)
      · exact ih (min d c) m hall2 hacc (Or.inr (by omega))

/-- Counterexample to claim C6: a node with full_depth 0 whose only
materialized child has full_depth 3, called with the depth parameter at
0, ends with full_depth 1 rather than the 1 + 3 = 4 the claim computes:
the recomputation folds the incoming depth parameter into the minimum
instead of taking the minimum over the children alone. -/
theorem updateFullDepth_not_one_plus_min :
    updateFullDepth 0 [3] 0 = (true, 1, 1)
    ∧ (updateFullDepth 0 [3] 0).2.1 ≠ 1 + 3 := by
  refine ⟨rfl, by decide⟩

/-- Claim C6 as amended: UpdateFullDepth leaves everything unchanged
and returns false when full_depth exceeds the incoming depth parameter;
otherwise it lowers the depth parameter to the minimum of its incoming
value and the full_depths of the materialized children, and when that
minimum reaches full_depth it stores minimum plus one (as a uint16) as
the new full_depth and returns true.  Whenever the incoming depth
parameter cannot overflow, the call returns true exactly when the
full_depth of the node increased; the claimed one plus minimum over the
children holds only when the incoming depth parameter is at least that
minimum and the full_depth is at most it. -/
theorem updateFullDepth_spec (cs : List Nat) (m : Nat)
    (hall : ∀ x ∈ cs, m ≤ x) (hmem : m ∈ cs) :
    (∀ f d, d < f → updateFullDepth f cs d = (false, f, d))
    ∧ (∀ f d, d + 1 < 65536 →
        ((updateFullDepth f cs d).1 = true
          ↔ f < (updateFullDepth f cs d).2.1))
    ∧ (∀ f d, m ≤ d → f ≤ m → m + 1 < 65536 →
        updateFullDepth f cs d = (true, m + 1, m + 1)) := by
  refine ⟨?_, ?_, ?_⟩
  · intro f d hd
    simp [updateFullDepth, hd]
  · intro f d hov
    by_cases hd : d < f
    · simp [updateFullDepth, hd]
    · have hd1 : cs.foldl (fun d c => if c < d then c else d) d ≤ d := by
        rw [foldl_step_eq_foldl_min]
        exact foldl_min_le cs d
      by_cases hf : f ≤ cs.foldl (fun d c => if c < d then c else d) d
      · have hmod : (cs.foldl (fun d c => if c < d then c else d) d + 1) % 65536
            = cs.foldl (fun d c => if c < d then c else d) d + 1 :=
          Nat.mod_eq_of_lt (by omega)
        have hres : updateFullDepth f cs d
            = (true, cs.foldl (fun d c => if c < d then c else d) d + 1,
               cs.foldl (fun d c => if c < d then c else d) d + 1) := by
          simp only [updateFullDepth, if_neg hd, if_pos hf, hmod]
        rw [hres]
        constructor
        · intro _
          show f < cs.foldl (fun d c => if c < d then c else d) d + 1
          omega
        · intro _
          rfl
      · have hres : updateFullDepth f cs d
            = (false, f, cs.foldl (fun d c => if c < d then c else d) d) := by
          simp only [updateFullDepth, if_neg hd, if_neg hf]
        rw [hres]
        simp
  · intro f d hmd hfm hov
    have hnd : ¬ d < f := by omega
    have hfold : cs.foldl (fun d c => if c < d then c else d) d = m := by
      rw [foldl_step_eq_foldl_min]
      exact foldl_min_eq cs d m hall hmd (Or.inl hmem)
    have hf : f ≤ cs.foldl (fun d c => if c < d then c else d) d := by
      omega
    simp only [updateFullDepth, if_neg hnd, hfold, if_pos hfm,
      Nat.mod_eq_of_lt hov]

/-- Witness for C6 as amended: a node with full_depth 1 and children of
full_depths 2 and 5, with the depth parameter at 9, updates its
full_depth to 3 (the child minimum plus one) and reports true. -/
theorem updateFullDepth_spec_witness :
    updateFullDepth 1 [2, 5] 9 = (true, 2 + 1, 2 + 1) :=
  (updateFullDepth_spec [2, 5] 2 (by decide) (by decide)).2.2 1 9
    (by decide) (by decide) (by decide)

/-- ReverseBitsInBytes (node.cc lines 231 to 236): reverse the bits in
every byte of a 64 bit mask. -/
def reverseBitsInBytes (v : Nat) : Nat :=
  let v1 := ((v >>> 1) &&& 0x5555555555555555)
              ||| ((v &&& 0x5555555555555555) <<< 1)
  let v2 := ((v1 >>> 2) &&& 0x3333333333333333)
              ||| ((v1 &&& 0x3333333333333333) <<< 2)
  ((v2 >>> 4) &&& 0x0F0F0F0F0F0F0F0F)
    ||| ((v2 &&& 0x0F0F0F0F0F0F0F0F) <<< 4)

/-- One entry of the Edges() view as GetV3TrainingData walks it: the
edge (move and prior) plus the visit count of its materialized node, if
any.  EdgeAndNode::GetN yields 0 when the node slot is empty. -/
structure EdgeChild where
  move : Move
  p : ℚ
  childN : Option Nat
deriving DecidableEq

/-- EdgeAndNode::GetN: the visit count of the node, or 0 when the edge
has no materialized node. -/
def EdgeChild.getN (e : EdgeChild) : Nat := e.childN.getD 0

/-- The divisor of the probability normalisation in GetV3TrainingData
(node.cc lines 247 to 248): the head visit count minus one, with no
guard against zero (in exact arithmetic; the first visit was the
expansion of the head itself). -/
def v3TotalN (headN : Nat) : ℚ := (headN : ℚ) - 1

/-- The probability vector of GetV3TrainingData (node.cc lines 249 to
253): start from all zeroes (the memset) and write, for every edge of
the view in order, GetN divided by the unguarded divisor at the nn
index of the move. -/
def v3Probabilities (headN : Nat) (entries : List EdgeChild) : Nat → ℚ :=
  entries.foldl
    (fun f e =>
      Function.update f e.move.as_nn_index ((e.getN : ℚ) / v3TotalN headN))
    (fun _ => 0)

/-- Modelled from the claim under check: the same probability
computation, guarded so that a zero divisor is an explicit error
branch. -/
def v3ProbabilitiesChecked (headN : Nat) (entries : List EdgeChild) :
    Option (Nat → ℚ) :=
  if v3TotalN headN = 0 then none
  else some (v3Probabilities headN entries)

/-- The V3TrainingData record (fields per the external interface
section of the spec; the probability vector is kept as a function from
nn indices). -/
structure V3TrainingData where
  version : Nat
  probabilities : Nat → ℚ
  planes : List Nat
  castling_us_ooo : Nat
  castling_us_oo : Nat
  castling_them_ooo : Nat
  castling_them_oo : Nat
  side_to_move : Nat
  move_count : Nat
  rule50_count : Nat
  result : Int

/-- Node::GetV3TrainingData (node.cc lines 239 to 285).  headN is the
visit count of the head, entries its Edges() view, planesIn the masks
from the external position encoder, the four castling flags and the
side to move and the no capture counter come from the last position of
the history. -/
def getV3TrainingData (headN : Nat) (entries : List EdgeChild)
    (game_result : GameResult) (planesIn : List Nat)
    (weOOO weOO theyOOO theyOO : Bool) (blackToMove : Bool)
    (noCapturePly : Nat) : V3TrainingData :=
  { version := 3,
    probabilities := v3Probabilities headN entries,
    planes := planesIn.map reverseBitsInBytes,
    castling_us_ooo := if weOOO then 1 else 0,
    castling_us_oo := if weOO then 1 else 0,
    castling_them_ooo := if theyOOO then 1 else 0,
    castling_them_oo := if theyOO then 1 else 0,
    side_to_move := if blackToMove then 1 else 0,
    move_count := 0,
    rule50_count := noCapturePly,
    result :=
      if game_result = GameResult.WHITE_WON then
        (if blackToMove then -1 else 1)
      else if game_result = GameResult.BLACK_WON then
        (if blackToMove then 1 else -1)
      else 0 }

lemma foldl_update_not_mem (entries : List EdgeChild) (headN : Nat)
    (f0 : Nat → ℚ) (j : Nat)
    (h : ∀ e ∈ entries, e.move.as_nn_index ≠ j) :
    (entries.foldl
      (fun f e =>
        Function.update f e.move.as_nn_index ((e.getN : ℚ) / v3TotalN headN))
      f0) j = f0 j := by
  induction entries generalizing f0 with
  | nil => rfl
  | cons a rest ih =>
      simp only [List.foldl_cons]
      rw [ih _ (fun e he => h e (List.mem_cons_of_mem a he))]
      exact Function.update_noteq (Ne.symm (h a (List.mem_cons_self a rest))) _ f0

lemma v3Probabilities_eq_of_mem (headN : Nat) (pre post : List EdgeChild)
    (e : EdgeChild)
    (h : ∀ x ∈ post, x.move.as_nn_index ≠ e.move.as_nn_index) :
    v3Probabilities headN (pre ++ e :: post) e.move.as_nn_index
      = (e.getN : ℚ) / v3TotalN headN := by
  unfold v3Probabilities
  rw [List.foldl_append]
  simp only [List.foldl_cons]
  rw [foldl_update_not_mem post headN _ _ h]
  exact Function.update_same _ _ _

/-- Claim C7: the record GetV3TrainingData produces has version byte 3
and move_count 0; its probability entry at the nn index of an edge with
a materialized child holds child.n divided by headN - 1, the entry of
an edge with no materialized node is 0, every index no edge maps to is
0, and the result field is 1 when the side to move at the head won the
game, 0 for a draw and -1 for a loss. -/
theorem getV3TrainingData_spec (headN : Nat) (entries : List EdgeChild)
    (gr : GameResult) (planesIn : List Nat)
    (weOOO weOO theyOOO theyOO blackToMove : Bool) (r50 : Nat)
    (hN : 2 ≤ headN)
    (hnodup : (entries.map (fun e => e.move.as_nn_index)).Nodup) :
    (getV3TrainingData headN entries gr planesIn weOOO weOO theyOOO
        theyOO blackToMove r50).version = 3
    ∧ (getV3TrainingData headN entries gr planesIn weOOO weOO theyOOO
        theyOO blackToMove r50).move_count = 0
    ∧ (∀ e ∈ entries, ∀ k, e.childN = some k →
        (getV3TrainingData headN entries gr planesIn weOOO weOO theyOOO
          theyOO blackToMove r50).probabilities e.move.as_nn_index
          = (k : ℚ) / ((headN : ℚ) - 1))
    ∧ (∀ e ∈ entries, e.childN = none →
        (getV3TrainingData headN entries gr planesIn weOOO weOO theyOOO
          theyOO blackToMove r50).probabilities e.move.as_nn_index = 0)
    ∧ (∀ j, (∀ e ∈ entries, e.move.as_nn_index ≠ j) →
        (getV3TrainingData headN entries gr planesIn weOOO weOO theyOOO
          theyOO blackToMove r50).probabilities j = 0)
    ∧ ((getV3TrainingData headN entries gr planesIn weOOO weOO theyOOO
          theyOO blackToMove r50).result
        = if (gr = GameResult.WHITE_WON ∧ blackToMove = false)
            ∨ (gr = GameResult.BLACK_WON ∧ blackToMove = true) then 1
          else if gr = GameResult.DRAW then 0 else -1) := by
  have hmain : ∀ e ∈ entries,
      v3Probabilities headN entries e.move.as_nn_index
        = (e.getN : ℚ) / v3TotalN headN := by
    intro e he
    obtain ⟨pre, post, hsplit⟩ := List.append_of_mem he
    subst hsplit
    refine v3Probabilities_eq_of_mem headN pre post e ?_
    intro x hx
    rw [List.map_append, List.nodup_append] at hnodup
    have h2 := hnodup.2.1
    rw [List.map_cons, List.nodup_cons] at h2
    intro heq
    exact h2.1 (heq ▸ List.mem_map_of_mem (fun y => y.move.as_nn_index) hx)
  refine ⟨rfl, rfl, ?_, ?_, ?_, ?_⟩
  · intro e he k hk
    have := hmain e he
    rw [show (getV3TrainingData headN entries gr planesIn weOOO weOO
        theyOOO theyOO blackToMove r50).probabilities
        = v3Probabilities headN entries from rfl, this]
    simp [EdgeChild.getN, hk, v3TotalN]
  · intro e he hk
    have := hmain e he
    rw [show (getV3TrainingData headN entries gr planesIn weOOO weOO
        theyOOO theyOO blackToMove r50).probabilities
        = v3Probabilities headN entries from rfl, this]
    simp [EdgeChild.getN, hk]
  · intro j hj
    rw [show (getV3TrainingData headN entries gr planesIn weOOO weOO
        theyOOO theyOO blackToMove r50).probabilities
        = v3Probabilities headN entries from rfl]
    exact foldl_update_not_mem entries headN _ j hj
  · rcases gr <;> cases blackToMove <;>
      simp [getV3TrainingData]

/-- Witness for C7: a head of 3 visits with one visited edge (child at
nn index 37 with one visit) and one unvisited edge at nn index 5; the
visited entry reads one half, the unvisited one 0, an absent index 0,
and version, move count and result fields are as claimed. -/
theorem getV3TrainingData_spec_witness :
    (getV3TrainingData 3
        [⟨{ idx := 37, flipped := false }, 1/2, some 1⟩,
         ⟨{ idx := 5, flipped := false }, 1/2, none⟩]
        GameResult.WHITE_WON [] false false false false false 0).probabilities
      (Move.as_nn_index { idx := 37, flipped := false })
      = ((1 : ℚ)) / ((3 : ℚ) - 1) :=
  ((getV3TrainingData_spec 3
      [⟨{ idx := 37, flipped := false }, 1/2, some 1⟩,
       ⟨{ idx := 5, flipped := false }, 1/2, none⟩]
      GameResult.WHITE_WON [] false false false false false 0
      (by decide) (by decide)).2.2.1)
    ⟨{ idx := 37, flipped := false }, 1/2, some 1⟩ (by simp) 1 rfl

/-- Claim C10: the divisor of the probability normalisation is exactly
zero when the head has a single visit, and only then; under the
precondition of at least two visits the divisor is nonzero and the
guarded computation never takes its error branch, returning exactly the
unguarded probability vector of the source. -/
theorem getV3_division_precondition (headN : Nat) (entries : List EdgeChild)
    (h : 2 ≤ headN) :
    v3TotalN 1 = 0
    ∧ (∀ n, v3TotalN n = 0 ↔ n = 1)
    ∧ v3TotalN headN ≠ 0
    ∧ v3ProbabilitiesChecked headN entries
        = some (v3Probabilities headN entries)
    ∧ v3ProbabilitiesChecked 1 entries = none := by
  have hiff : ∀ n : Nat, v3TotalN n = 0 ↔ n = 1 := by
    intro n
    unfold v3TotalN
    constructor
    · intro hz
      have : (n : ℚ) = 1 := by linarith
      exact_mod_cast this
    · intro hz
      subst hz
      norm_num
  have hne : v3TotalN headN ≠ 0 := by
    intro hz
    have := (hiff headN).mp hz
    omega
  refine ⟨by unfold v3TotalN; norm_num, hiff, hne, ?_, ?_⟩
  · simp [v3ProbabilitiesChecked, hne]
  · simp [v3ProbabilitiesChecked, (hiff 1).mpr rfl]

/-- Witness for C10: with two visits at the head the guarded
computation succeeds. -/
theorem getV3_division_precondition_witness :
    v3ProbabilitiesChecked 2 [] = some (v3Probabilities 2 []) :=
  (getV3_division_precondition 2 [] (by decide)).2.2.2.1

end CCZero
